import Mathlib

/-!
Formal model of the core text-reconciliation subsystem of `newsbot.py`:
normalization, fuzzy duplicate detection against history, the resilient
JSON-recovery parser, digest reconciliation, and the bounded-retention
history lifecycle.

Conventions of the embedding:
* Python strings are Lean `String` (a wrapper around `List Char`); the
  character-level repair passes work on `List Char` directly.
* Python's `dict` (insertion-ordered) is an association list
  `List (String × _)`; updating an existing key keeps its position and a
  fresh key is appended at the end, as CPython does.
* External collaborators that are not part of the repository source are
  abstracted as function parameters: the NLTK stemmer/lemmatizer
  (`stem`, `lem : String → String`), the stdlib JSON parser
  (`loads : String → Option JVal`, `none` = `json.JSONDecodeError`),
  `ast.literal_eval` (`evalLit`), and the RFC-2822 date parser
  (`pd : String → Option Int`, an epoch-seconds timestamp, `none` =
  unparseable).  Fallible code returns `Option`.
* Machine arithmetic: the only numeric comparison in the core is
  `len(overlap) / len(T) >= 0.4` on Python floats.  For the small integer
  cardinalities involved this is exactly the rational comparison
  `|T ∩ H| / |T| ≥ 2/5`, i.e. `2 * |T| ≤ 5 * |T ∩ H|`; the definitions use
  the integer form so that they evaluate, and `MATCH_THRESHOLD : ℚ := 2/5`
  is used to state the ratio-level theorems.
-/

namespace NewsBot

/-! ### Character and string utilities (Python `str` semantics) -/

/-- The ASCII apostrophe character, written numerically. -/
def squote : Char := Char.ofNat 39

/-- Python's whitespace class `\s` restricted to ASCII: space, `\t`, `\n`,
`\r`, `\x0b`, `\x0c`.  (Python also treats some Unicode code points as
whitespace; none of the behaviour modelled here depends on those.) -/
def isPySpace (c : Char) : Bool :=
  c = ' ' || c = '\t' || c = '\n' || c = '\r' || c = Char.ofNat 11 || c = Char.ofNat 12

/-- Accumulator worker for `pySplit`: splits on runs of whitespace,
discarding empty pieces, exactly like Python's `str.split()` with no
arguments.  `cur` holds the current in-progress token, reversed. -/
def splitAux (cur : List Char) : List Char → List (List Char)
  | [] => if cur.isEmpty then [] else [cur.reverse]
  | c :: rest =>
    if isPySpace c then
      if cur.isEmpty then splitAux [] rest
      else cur.reverse :: splitAux [] rest
    else splitAux (c :: cur) rest

/-- Python `s.split()`: split on whitespace runs, no empty tokens. -/
def pySplit (s : String) : List String :=
  (splitAux [] s.data).map String.mk

/-- Python `s.lower()`, modelled character-wise with Lean's ASCII
`Char.toLower` (the titles the bot handles are ASCII). -/
def pyLower (s : String) : String :=
  String.mk (s.data.map Char.toLower)

/-- Python `sep.join(list)`. -/
def pyJoin (sep : String) : List String → String
  | [] => ""
  | [w] => w
  | w :: ws => w ++ sep ++ pyJoin sep ws

/-- Python `d.get(k, default)` on an insertion-ordered dict modelled as an
association list. -/
def lookupD {α : Type} (l : List (String × α)) (k : String) (d : α) : α :=
  match l.find? (fun p => p.1 == k) with
  | some p => p.2
  | none => d

/-- Python `d[k] = v` on an insertion-ordered dict: update in place if the
key exists, otherwise append at the end. -/
def setKey {α : Type} (k : String) (v : α) : List (String × α) → List (String × α)
  | [] => [(k, v)]
  | p :: rest => if p.1 = k then (k, v) :: rest else p :: setKey k v rest

/-- Python `l[-n:]`: the last `n` elements (all of them when `n ≥ len`). -/
def lastN {α : Type} (n : Nat) (l : List α) : List α :=
  l.drop (l.length - n)

/-- Python `s[:-n]` for `n > 0`: drop the last `n` characters (empty result
when `n ≥ len`). -/
def dropLastN (n : Nat) (s : List Char) : List Char :=
  s.take (s.length - n)

/-- Python `s.rstrip(c)`: remove the whole maximal trailing run of `c`. -/
def rstripChar (c : Char) (s : List Char) : List Char :=
  (s.reverse.dropWhile (fun d => d = c)).reverse

/-- Length of the maximal trailing run of `c` in `s`. -/
def trailRun (c : Char) (s : List Char) : Nat :=
  (s.reverse.takeWhile (fun d => d = c)).length

/-! ### Normalizer (`normalize`, newsbot.py lines 168-172)

The NLTK `PorterStemmer.stem` and `WordNetLemmatizer.lemmatize` calls are
external library code, abstracted as the parameters `stem` and `lem`. -/

/-- `normalize(text)`: lowercase, whitespace-split, stem then lemmatize each
token, rejoin with single spaces. -/
def normalize (stem lem : String → String) (text : String) : String :=
  pyJoin " " (((pySplit (pyLower text)).map stem).map lem)

/-- The normalized token set of a title:
`set(normalize(title).split())` (newsbot.py line 176). -/
def tokenSet (stem lem : String → String) (title : String) : Finset String :=
  (pySplit (normalize stem lem title)).toFinset

/-- The deduplication threshold, `MATCH_THRESHOLD = 0.4` (newsbot.py line
113), as the exact rational it denotes.  For every ratio `k/n` of token-set
cardinalities the Python float comparison `k/n >= 0.4` agrees with the exact
rational comparison `k/n ≥ 2/5` (the float error is far below `1/(5n)`), so
the embedding uses exact arithmetic. -/
def MATCH_THRESHOLD : ℚ := 2 / 5

/-! ### History data model -/

/-- One persisted history entry: `{"title": ..., "pubDate": ...}`. -/
structure HistEntry where
  title : String
  pubDate : String
deriving DecidableEq

/-- One fetched article: `{"title": ..., "link": ..., "pubDate": ...}`. -/
structure Article where
  title : String
  link : String
  pubDate : String
deriving DecidableEq

/-- `history.json` contents: topic key → ordered entries. -/
abbrev History := List (String × List HistEntry)

/-! ### Similarity matcher (`is_in_history`, newsbot.py lines 175-188)

The Python body divides by `len(norm_title_tokens)` with no guard, so a
candidate whose normalized token set is empty raises `ZeroDivisionError`
as soon as a history entry with a non-empty token set is reached.  The
embedding returns `none` exactly where the Python code raises.

The comparison `len(overlap) / len(norm_title_tokens) >= MATCH_THRESHOLD`
is embedded as `2 * |T| ≤ 5 * |T ∩ H|` (see `MATCH_THRESHOLD`). -/

/-- The inner loop `for a in articles` of `is_in_history`.
`some true` = matched (early return), `some false` = scan this topic's list
to the end without a match, `none` = `ZeroDivisionError`. -/
def scanEntries (stem lem : String → String) (T : Finset String) :
    List HistEntry → Option Bool
  | [] => some false
  | e :: rest =>
    let H := tokenSet stem lem e.title
    if H = ∅ then scanEntries stem lem T rest
    else if T.card = 0 then none
    else if 2 * T.card ≤ 5 * (T ∩ H).card then some true
    else scanEntries stem lem T rest

/-- The outer loop `for articles in history.values()` of `is_in_history`:
the history is scanned flat, across every topic. -/
def scanTopics (stem lem : String → String) (T : Finset String) :
    History → Option Bool
  | [] => some false
  | p :: rest =>
    match scanEntries stem lem T p.2 with
    | some true => some true
    | none => none
    | some false => scanTopics stem lem T rest

/-- `is_in_history(article_title, history)`; `none` models the uncaught
`ZeroDivisionError`. -/
def is_in_history (stem lem : String → String) (article_title : String)
    (history : History) : Option Bool :=
  scanTopics stem lem (tokenSet stem lem article_title) history

/-! ### JSON values and a model of the stdlib strict parser -/

/-- A JSON value, the possible results of `json.loads` /
`ast.literal_eval`.  (Numbers are modelled as integers; nothing in the
development depends on floats.) -/
inductive JVal where
  | null
  | bool (b : Bool)
  | num (n : Int)
  | str (s : String)
  | arr (elems : List JVal)
  | obj (fields : List (String × JVal))

/-- Whether a JSON value is an object mapping strings to arrays of strings
— the shape the spec's parser contract `mapping<string, list<string>>`
promises. -/
def isStrListObj : JVal → Bool
  | .obj fields =>
    fields.all fun p =>
      match p.2 with
      | .arr es => es.all fun e => match e with | .str _ => true | _ => false
      | _ => false
  | _ => false

/-- JSON whitespace (`json.loads` skips exactly these four characters). -/
def isJsonWs (c : Char) : Bool :=
  c = ' ' || c = '\t' || c = '\n' || c = '\r'

/-- Skip JSON whitespace. -/
def skipWs (cs : List Char) : List Char := cs.dropWhile isJsonWs

/-- Body of a JSON string after the opening quote: returns the decoded
characters and the remainder after the closing quote.  Handles the
single-character escapes; `\u` escapes are not modelled (the parser model
is only ever evaluated on concrete inputs that do not use them). -/
def parseStringBody : List Char → Option (List Char × List Char)
  | [] => none
  | c :: rest =>
    if c = '"' then some ([], rest)
    else if c = '\\' then
      match rest with
      | [] => none
      | e :: rest2 =>
        let dec : Option Char :=
          if e = '"' then some '"'
          else if e = '\\' then some '\\'
          else if e = '/' then some '/'
          else if e = 'b' then some (Char.ofNat 8)
          else if e = 'f' then some (Char.ofNat 12)
          else if e = 'n' then some '\n'
          else if e = 'r' then some '\r'
          else if e = 't' then some '\t'
          else none
        match dec with
        | some ch => (parseStringBody rest2).map fun p => (ch :: p.1, p.2)
        | none => none
    else (parseStringBody rest).map fun p => (c :: p.1, p.2)

/-- Digit run → natural number. -/
def digitsToNat (ds : List Char) : Nat :=
  ds.foldl (fun a c => a * 10 + (c.toNat - 48)) 0

/-- Parsing mode for the fuel-indexed JSON parser: a single value, the item
list of an array after `[`, or the field list of an object after `{`. -/
inductive PMode where
  | val
  | arrItems
  | objFields

/-- Fuel-indexed recursive-descent JSON parser.  In mode `.arrItems` the
result is `JVal.arr` of the items up to the closing `]`; in mode
`.objFields` it is `JVal.obj` of the fields up to the closing `}`. -/
def parseCore : Nat → PMode → List Char → Option (JVal × List Char)
  | 0, _, _ => none
  | fuel + 1, .val, cs =>
    match skipWs cs with
    | [] => none
    | c :: rest =>
      if c = '{' then
        match skipWs rest with
        | '}' :: r => some (.obj [], r)
        | cs2 =>
          match parseCore fuel .objFields cs2 with
          | some (v, r) => some (v, r)
          | none => none
      else if c = '[' then
        match skipWs rest with
        | ']' :: r => some (.arr [], r)
        | cs2 =>
          match parseCore fuel .arrItems cs2 with
          | some (v, r) => some (v, r)
          | none => none
      else if c = '"' then
        match parseStringBody rest with
        | some (l, r) => some (.str (String.mk l), r)
        | none => none
      else if c = 't' then
        if rest.take 3 = ['r', 'u', 'e'] then some (.bool true, rest.drop 3) else none
      else if c = 'f' then
        if rest.take 4 = ['a', 'l', 's', 'e'] then some (.bool false, rest.drop 4) else none
      else if c = 'n' then
        if rest.take 3 = ['u', 'l', 'l'] then some (.null, rest.drop 3) else none
      else if c = '-' then
        let ds := rest.takeWhile Char.isDigit
        let r := rest.dropWhile Char.isDigit
        if ds.isEmpty then none
        else
          match r with
          | '.' :: _ => none
          | 'e' :: _ => none
          | 'E' :: _ => none
          | _ => some (.num (-(digitsToNat ds : Int)), r)
      else if c.isDigit then
        let ds := (c :: rest).takeWhile Char.isDigit
        let r := (c :: rest).dropWhile Char.isDigit
        match r with
        | '.' :: _ => none
        | 'e' :: _ => none
        | 'E' :: _ => none
        | _ => some (.num (digitsToNat ds : Int), r)
      else none
  | fuel + 1, .arrItems, cs =>
    match parseCore fuel .val cs with
    | some (v, rest) =>
      (match skipWs rest with
       | ',' :: r =>
         match parseCore fuel .arrItems r with
         | some (.arr vs, r2) => some (.arr (v :: vs), r2)
         | _ => none
       | ']' :: r => some (.arr [v], r)
       | _ => none)
    | none => none
  | fuel + 1, .objFields, cs =>
    match skipWs cs with
    | '"' :: rest =>
      match parseStringBody rest with
      | some (key, r) =>
        (match skipWs r with
         | ':' :: r2 =>
           match parseCore fuel .val r2 with
           | some (v, r3) =>
             (match skipWs r3 with
              | ',' :: r4 =>
                match parseCore fuel .objFields r4 with
                | some (.obj fs, r5) => some (.obj ((String.mk key, v) :: fs), r5)
                | _ => none
              | '}' :: r4 => some (.obj [(String.mk key, v)], r4)
              | _ => none)
           | none => none
         | _ => none)
      | none => none
    | _ => none

/-- Modelled from the spec: Python's `json.loads` (stdlib code, not in
`src/`), the "strict structured data" parser of cascade stage 1.  A strict
parse of one JSON document: one value, surrounding whitespace allowed,
trailing data rejected.  `none` models `json.JSONDecodeError`. -/
def loadsModel (s : String) : Option JVal :=
  match parseCore (s.data.length + 1) .val s.data with
  | some (v, rest) => if (skipWs rest).isEmpty then some v else none
  | none => none

/-! ### The repair passes of `safe_parse_json` (newsbot.py lines 273-365)

Each Python `re.sub` is embedded as a character-level scan with the same
left-to-right, non-overlapping match semantics.  Scans whose recursion is
not structural carry a fuel argument (always called with `length + 1`,
which is ample since every step consumes at least one character); this
keeps every definition kernel-evaluable. -/

/-- The backtick character, written numerically. -/
def btick : Char := Char.ofNat 96

/-- A code-fence delimiter: three backticks. -/
def fence : List Char := [btick, btick, btick]

/-- `strip_wrappers` (lines 291-296): `str.strip()`, then remove a leading
code fence (three backticks, optionally tagged `json`) with trailing
whitespace (regex `^```(?:json)?\s*`), then remove a trailing fence with
preceding whitespace (regex `\s*```$`). -/
def strip_wrappers (s : String) : String :=
  let t := ((s.data.dropWhile isPySpace).reverse.dropWhile isPySpace).reverse
  let t :=
    if t.take 3 = fence then
      let r := t.drop 3
      let r := if r.take 4 = ['j', 's', 'o', 'n'] then r.drop 4 else r
      r.dropWhile isPySpace
    else t
  let t :=
    if t.reverse.take 3 = fence then
      ((t.reverse.drop 3).dropWhile isPySpace).reverse
    else t
  String.mk t

/-- The smart-quote replacements (line 318), four single-character
`str.replace` calls, i.e. one character map. -/
def smartQuote (c : Char) : Char :=
  if c = '“' || c = '”' then '"'
  else if c = '‘' || c = '’' then squote
  else c

/-- `re.sub(r",\s*([\]}])", r"\1", text)` (line 321): a comma followed by
optional whitespace and a closing bracket/brace is replaced by just the
closer; scanning resumes after the match. -/
def fixTrailingCommas : Nat → List Char → List Char
  | 0, l => l
  | _ + 1, [] => []
  | fuel + 1, c :: rest =>
    if c = ',' then
      match rest.dropWhile isPySpace with
      | d :: rest2 =>
        if d = ']' || d = '}' then d :: fixTrailingCommas fuel rest2
        else c :: fixTrailingCommas fuel rest
      | [] => c :: fixTrailingCommas fuel rest
    else c :: fixTrailingCommas fuel rest

/-- Scan to the next apostrophe: returns the characters before it and the
remainder after it. -/
def takeToQuote : List Char → Option (List Char × List Char)
  | [] => none
  | c :: rest =>
    if c = squote then some ([], rest)
    else (takeToQuote rest).map fun p => (c :: p.1, p.2)

/-- Whether the previous character satisfies the lookbehind `(?<=[:\s])`. -/
def prevColonOrSpace : Option Char → Bool
  | some c => c = ':' || isPySpace c
  | none => false

/-- `re.sub(r"(?<=[:\s])'([^']*?)'", r'"\1"', text)` (line 324): a
single-quoted span whose opening quote is preceded by a colon or
whitespace is re-quoted with double quotes.  `prev` is the character
before the scan position in the original text (lookbehinds read the
original text, so after a match it is the closing quote itself). -/
def fixSingleQuotes : Nat → Option Char → List Char → List Char
  | 0, _, l => l
  | _ + 1, _, [] => []
  | fuel + 1, prev, c :: rest =>
    if c = squote && prevColonOrSpace prev then
      match takeToQuote rest with
      | some (content, rest2) =>
        '"' :: content ++ '"' :: fixSingleQuotes fuel (some squote) rest2
      | none => c :: fixSingleQuotes fuel (some c) rest
    else c :: fixSingleQuotes fuel (some c) rest

/-- Characters that end the lazy content class `[^\[\]]*?` of the
array-brace repair, or close it. -/
def stopsArrayContent (c : Char) : Bool :=
  c = '[' || c = ']' || c = '}'

/-- `re.sub(r'(\[[^\[\]]*?)\s*\}', r'\1]', text)` (line 327): after a `[`,
if the first bracket-or-brace character reached is `}`, the span matches;
the whitespace just before the `}` is absorbed and the `}` becomes `]`. -/
def fixArrayBrace : Nat → List Char → List Char
  | 0, l => l
  | _ + 1, [] => []
  | fuel + 1, c :: rest =>
    if c = '[' then
      match rest.dropWhile (fun d => !stopsArrayContent d) with
      | '}' :: rest2 =>
        let content := rest.takeWhile (fun d => !stopsArrayContent d)
        '[' :: (content.reverse.dropWhile isPySpace).reverse ++ ']' :: fixArrayBrace fuel rest2
      | _ => c :: fixArrayBrace fuel rest
    else c :: fixArrayBrace fuel rest

/-- The control characters stripped by line 330: C0 controls, DEL,
directional marks U+202A-U+202E, U+2060, U+FEFF. -/
def isStrippedCtrl (c : Char) : Bool :=
  c.toNat ≤ 31 || c.toNat = 127 ||
    (8234 ≤ c.toNat && c.toNat ≤ 8238) || c.toNat = 8288 || c.toNat = 65279

/-- One balancing pass of `balance_braces` (lines 298-314) for one
opener/closer pair: append the missing closers when openers are in excess;
when closers are in excess, `text.rstrip(closer)[:-(excess)]` — strip the
whole trailing run of the closer, then drop `excess` further characters. -/
def balanceOne (op cl : Char) (s : List Char) : List Char :=
  let o := s.count op
  let c := s.count cl
  if c < o then s ++ List.replicate (o - c) cl
  else if o < c then dropLastN (c - o) (rstripChar cl s)
  else s

/-- `balance_braces(text)`: braces first, then brackets on the updated
text. -/
def balance_braces (s : List Char) : List Char :=
  balanceOne '[' ']' (balanceOne '{' '}' s)

/-- `fix_common_json_errors` (lines 316-335): smart quotes, trailing
commas, single-quoted spans, array-closing braces, control characters,
then brace/bracket balancing, in source order. -/
def fix_common_json_errors (s : String) : String :=
  let cs := s.data.map smartQuote
  let cs := fixTrailingCommas (cs.length + 1) cs
  let cs := fixSingleQuotes (cs.length + 1) none cs
  let cs := fixArrayBrace (cs.length + 1) cs
  let cs := cs.filter (fun c => !isStrippedCtrl c)
  String.mk (balance_braces cs)

/-- `re.search(r"\{.*\}", cleaned, re.DOTALL)` (line 356): with the greedy
dot-all `.*`, the match (if any) runs from the first `{` to the last `}`
after it. -/
def extractBraceSpan (s : String) : Option String :=
  let cs := s.data
  match cs.findIdx? (fun c => c = '{') with
  | none => none
  | some i =>
    let rest := cs.drop i
    match rest.reverse.findIdx? (fun c => c = '}') with
    | none => none
    | some k => some (String.mk (rest.take (rest.length - k)))

/-- Stages 2-4 of the cascade, applied to the cleaned text: strict parse,
`ast.literal_eval`, then regex extraction with a second cleanup and strict
parse; `{}` if everything fails (lines 342-365). -/
def safeParseCleaned (loads evalLit : String → Option JVal) (cleaned : String) : JVal :=
  match loads cleaned with
  | some v => v
  | none =>
    match evalLit cleaned with
    | some v => v
    | none =>
      match extractBraceSpan cleaned with
      | none => JVal.obj []
      | some cand =>
        match loads (fix_common_json_errors cand) with
        | some v => v
        | none => JVal.obj []

/-- `safe_parse_json(raw)` (lines 273-365): try the untouched input first;
only on failure strip wrappers, run the cleanup pass, and fall through the
recovery cascade. -/
def safe_parse_json (loads evalLit : String → Option JVal) (raw : String) : JVal :=
  match loads raw with
  | some v => v
  | none => safeParseCleaned loads evalLit (fix_common_json_errors (strip_wrappers raw))

/-! ### Digest reconciler, step 1: cross-topic dedup (newsbot.py lines 452-464) -/

/-- The inner title loop of the dedup pass: returns the titles kept for
this topic and the updated `seen_normalized_titles` set (modelled as the
list of normalized forms added so far). -/
def dedupTitles (stem lem : String → String) (seen : List String) :
    List String → List String × List String
  | [] => ([], seen)
  | t :: ts =>
    let n := normalize stem lem t
    if n ∈ seen then dedupTitles stem lem seen ts
    else
      let p := dedupTitles stem lem (n :: seen) ts
      (t :: p.1, p.2)

/-- The dedup pass over the whole selection: topics in iteration order, a
topic kept only if at least one of its titles survived. -/
def dedupPass (stem lem : String → String) (seen : List String) :
    List (String × List String) → List (String × List String)
  | [] => []
  | (topic, titles) :: rest =>
    let p := dedupTitles stem lem seen titles
    if p.1.isEmpty then dedupPass stem lem p.2 rest
    else (topic, p.1) :: dedupPass stem lem p.2 rest

/-- All normalized titles of a selection, in iteration order. -/
def digestNorms (stem lem : String → String) (l : List (String × List String)) : List String :=
  l.foldr (fun p acc => p.2.map (normalize stem lem) ++ acc) []

/-- The first topic of the selection containing a title whose normalized
form is `n`, if any. -/
def firstTopicWith (stem lem : String → String) (n : String)
    (sel : List (String × List String)) : Option String :=
  (sel.find? (fun p => p.2.any (fun t => normalize stem lem t == n))).map (fun p => p.1)

/-! ### Digest reconciler, step 2: rebuild to full records (lines 466-479) -/

/-- The inner `for a in articles` loop with its `break`: the first article
whose normalized title equals the target and whose normalized form is not
already used in this topic. -/
def pickArticle (stem lem : String → String) (nt : String) (seen : List String) :
    List Article → Option Article
  | [] => none
  | a :: rest =>
    if normalize stem lem a.title = nt ∧ nt ∉ seen then some a
    else pickArticle stem lem nt seen rest

/-- The `for title in titles` loop building `selected` and `seen_titles`. -/
def selectLoop (stem lem : String → String) (articles : List Article) (seen : List String) :
    List String → List Article
  | [] => []
  | t :: ts =>
    match pickArticle stem lem (normalize stem lem t) seen articles with
    | some a => a :: selectLoop stem lem articles (normalize stem lem t :: seen) ts
    | none => selectLoop stem lem articles seen ts

/-- The rebuild loop: for each selected topic, match titles back to that
topic's fetched articles (`full_articles.get(topic, [])`); topics with no
surviving article are omitted. -/
def rebuildDigest (stem lem : String → String) :
    List (String × List String) → List (String × List Article) → List (String × List Article)
  | [], _ => []
  | (topic, titles) :: rest, full =>
    let selected := selectLoop stem lem (lookupD full topic []) [] titles
    if selected.isEmpty then rebuildDigest stem lem rest full
    else (topic, selected) :: rebuildDigest stem lem rest full

/-! ### History store lifecycle (newsbot.py lines 518-559) -/

/-- `topic.replace(" ", "_").lower()` (line 526). -/
def slugKey (topic : String) : String :=
  pyLower (String.mk (topic.data.map fun c => if c = ' ' then '_' else c))

/-- The entries the append loop of lines 530-535 adds for one topic:
articles whose normalized title is not already present among the titles
existing *before* the loop, reduced to `{title, pubDate}`. -/
def freshFor (stem lem : String → String) (articles : List Article)
    (cur : List HistEntry) : List HistEntry :=
  (articles.filter
    (fun a => decide (normalize stem lem a.title ∉ cur.map (fun e => normalize stem lem e.title)))).map
    (fun a => HistEntry.mk a.title a.pubDate)

/-- The per-topic append of lines 527-536: append the fresh entries, then
truncate the list to its last 40 entries. -/
def recordTopic (stem lem : String → String) (articles : List Article)
    (cur : List HistEntry) : List HistEntry :=
  lastN 40 (cur ++ freshFor stem lem articles cur)

/-- The history append loop (lines 525-536), run only after a successful
send. -/
def recordSent (stem lem : String → String) (digest : List (String × List Article))
    (history : History) : History :=
  digest.foldl
    (fun h p => setKey (slugKey p.1) (recordTopic stem lem p.2 (lookupD h (slugKey p.1) [])) h)
    history

/-- Whether a history entry survives pruning: its `pubDate` parses (`pd`,
abstracting `parsedate_to_datetime`, `none` = exception, logged and
dropped) and is within the last 30 days — `timedelta(days=30)` =
2592000 seconds — of `now` (lines 542-551). -/
def keepEntry (pd : String → Option Int) (now : Int) (e : HistEntry) : Bool :=
  match pd e.pubDate with
  | some d => decide (now - 2592000 ≤ d)
  | none => false

/-- The retention pruning of lines 541-555: filter each topic's entries,
delete topics left empty. -/
def prune (pd : String → Option Int) (now : Int) (h : History) : History :=
  (h.map (fun p => (p.1, p.2.filter (keepEntry pd now)))).filter (fun p => !p.2.isEmpty)

/-- The tail of `main` from the send attempt to the final
`json.dump(history, f)` (lines 518-559): the append block runs inside the
`try:` and is skipped when the send raises (`sendOk = false`), but the
retention pruning and the save are outside the `except` and always run.
The result is the history that is persisted at run end. -/
def runFinalize (stem lem : String → String) (pd : String → Option Int) (now : Int)
    (sendOk : Bool) (digest : List (String × List Article)) (history : History) : History :=
  prune pd now (if sendOk then recordSent stem lem digest history else history)

/-! ### Spec-modelled token reducers for the normalizer claims -/

/-- Modelled from the spec: the "rule-based suffix-stripping stem" of
§4.1 (NLTK's `PorterStemmer`, not in `src/`), restricted to the one Porter
rule needed here: step 1a's `S → ""`, stripping a final `s` from words
longer than three characters (`stem("corpus") = "corpu"`, as NLTK's
stemmer computes). -/
def stemModel (w : String) : String :=
  match w.data.reverse with
  | 's' :: c1 :: c2 :: c3 :: rest => String.mk ((c1 :: c2 :: c3 :: rest).reverse)
  | _ => w

/-- Modelled from the spec: the "dictionary-based lemmatization" of §4.1
(NLTK's `WordNetLemmatizer`, not in `src/`), restricted to the one WordNet
exception needed here: the irregular plural `corpora → corpus`. -/
def lemModel (w : String) : String :=
  if w = "corpora" then "corpus" else w

/-! ## Helper lemmas -/

/-- `dropWhile` is `drop` of the `takeWhile` length. -/
theorem dropWhile_eq_drop {α : Type} (p : α → Bool) (l : List α) :
    l.dropWhile p = l.drop (l.takeWhile p).length := by
  induction l with
  | nil => rfl
  | cons a l ih =>
    by_cases h : p a
    · simpa [List.dropWhile, List.takeWhile, h] using ih
    · simp [List.dropWhile, List.takeWhile, h]

/-- `rstrip(c)` keeps exactly the characters before the trailing run. -/
theorem rstripChar_eq_take (c : Char) (s : List Char) :
    rstripChar c s = s.take (s.length - trailRun c s) := by
  unfold rstripChar trailRun
  rw [dropWhile_eq_drop, List.reverse_drop]
  simp

/-- Stages of `safeParseCleaned` only return values produced by one of the
two parsers, or the empty object. -/
theorem safeParseCleaned_cases (loads evalLit : String → Option JVal) (cleaned : String) :
    (∃ s, loads s = some (safeParseCleaned loads evalLit cleaned)) ∨
    (∃ s, evalLit s = some (safeParseCleaned loads evalLit cleaned)) ∨
    safeParseCleaned loads evalLit cleaned = JVal.obj [] := by
  unfold safeParseCleaned
  cases h1 : loads cleaned with
  | some v => exact .inl ⟨cleaned, h1⟩
  | none =>
    cases h2 : evalLit cleaned with
    | some v =>
      refine .inr (.inl ⟨cleaned, ?_⟩)
      simp [h1, h2]
    | none =>
      cases h3 : extractBraceSpan cleaned with
      | none =>
        refine .inr (.inr ?_)
        simp [h1, h2, h3]
      | some cand =>
        cases h4 : loads (fix_common_json_errors cand) with
        | some v =>
          refine .inl ⟨fix_common_json_errors cand, ?_⟩
          simp [h1, h2, h3, h4]
        | none =>
          refine .inr (.inr ?_)
          simp [h1, h2, h3, h4]

/-- A history entry `e` matches candidate token set `T`: non-empty token
set and overlap ratio at least the threshold (integer form). -/
def entryHit (stem lem : String → String) (T : Finset String) (e : HistEntry) : Prop :=
  tokenSet stem lem e.title ≠ ∅ ∧ 2 * T.card ≤ 5 * (T ∩ tokenSet stem lem e.title).card

/-- The integer comparison used by the code is exactly the threshold
comparison on the rational overlap ratio. -/
theorem threshold_iff (i t : Nat) (ht : t ≠ 0) :
    MATCH_THRESHOLD ≤ (i : ℚ) / (t : ℚ) ↔ 2 * t ≤ 5 * i := by
  have htq : (0 : ℚ) < (t : ℚ) := by exact_mod_cast Nat.pos_of_ne_zero ht
  unfold MATCH_THRESHOLD
  rw [div_le_div_iff₀ (by norm_num) htq]
  constructor
  · intro h
    have h2 : (2 * t : ℚ) ≤ 5 * i := by linarith
    exact_mod_cast h2
  · intro h
    have h2 : (2 * t : ℚ) ≤ 5 * i := by exact_mod_cast h
    linarith

/-- With a non-empty candidate token set, the inner scan never raises. -/
theorem scanEntries_ne_none (stem lem : String → String) (T : Finset String)
    (hT : T.card ≠ 0) (l : List HistEntry) : scanEntries stem lem T l ≠ none := by
  induction l with
  | nil => simp [scanEntries]
  | cons e rest ih =>
    by_cases h1 : tokenSet stem lem e.title = ∅
    · simpa [scanEntries, h1] using ih
    · by_cases h2 : 2 * T.card ≤ 5 * (T ∩ tokenSet stem lem e.title).card
      · simp [scanEntries, h1, hT, h2]
      · simpa [scanEntries, h1, hT, h2] using ih

/-- With a non-empty candidate token set, the inner scan reports a match
exactly when some entry of the list matches. -/
theorem scanEntries_true_iff (stem lem : String → String) (T : Finset String)
    (hT : T.card ≠ 0) (l : List HistEntry) :
    scanEntries stem lem T l = some true ↔ ∃ e ∈ l, entryHit stem lem T e := by
  induction l with
  | nil => simp [scanEntries]
  | cons e rest ih =>
    by_cases h1 : tokenSet stem lem e.title = ∅
    · simp [scanEntries, h1, ih, entryHit]
    · by_cases h2 : 2 * T.card ≤ 5 * (T ∩ tokenSet stem lem e.title).card
      · simp only [scanEntries, if_neg h1, if_neg hT, if_pos h2]
        constructor
        · intro _
          exact ⟨e, List.mem_cons_self e rest, h1, h2⟩
        · intro _
          trivial
      · simp only [scanEntries, if_neg h1, if_neg hT, if_neg h2]
        rw [ih]
        constructor
        · rintro ⟨a, ha, hhit⟩
          exact ⟨a, List.mem_cons_of_mem e ha, hhit⟩
        · rintro ⟨a, ha, hhit⟩
          rcases List.mem_cons.mp ha with h | h
          · subst h
            exact absurd hhit.2 h2
          · exact ⟨a, h, hhit⟩

/-- With a non-empty candidate token set, the flat scan never raises. -/
theorem scanTopics_ne_none (stem lem : String → String) (T : Finset String)
    (hT : T.card ≠ 0) (h : History) : scanTopics stem lem T h ≠ none := by
  induction h with
  | nil => simp [scanTopics]
  | cons p rest ih =>
    cases hs : scanEntries stem lem T p.2 with
    | none => exact absurd hs (scanEntries_ne_none stem lem T hT p.2)
    | some b =>
      cases b
      · simpa [scanTopics, hs] using ih
      · simp [scanTopics, hs]

/-- With a non-empty candidate token set, the flat scan reports a match
exactly when some entry of some topic matches. -/
theorem scanTopics_true_iff (stem lem : String → String) (T : Finset String)
    (hT : T.card ≠ 0) (h : History) :
    scanTopics stem lem T h = some true ↔ ∃ p ∈ h, ∃ e ∈ p.2, entryHit stem lem T e := by
  induction h with
  | nil => simp [scanTopics]
  | cons p rest ih =>
    cases hs : scanEntries stem lem T p.2 with
    | none => exact absurd hs (scanEntries_ne_none stem lem T hT p.2)
    | some b =>
      cases b
      · simp only [scanTopics, hs]
        rw [ih]
        have hnot : ¬ ∃ e ∈ p.2, entryHit stem lem T e := by
          intro hex
          have := (scanEntries_true_iff stem lem T hT p.2).mpr hex
          rw [hs] at this
          exact Bool.false_ne_true (Option.some.inj this)
        constructor
        · rintro ⟨q, hq, he⟩
          exact ⟨q, List.mem_cons_of_mem p hq, he⟩
        · rintro ⟨q, hq, he⟩
          rcases List.mem_cons.mp hq with h | h
          · subst h
            exact absurd he hnot
          · exact ⟨q, h, he⟩
      · simp only [scanTopics, hs]
        constructor
        · intro _
          obtain ⟨e, he, hhit⟩ := (scanEntries_true_iff stem lem T hT p.2).mp hs
          exact ⟨p, List.mem_cons_self p rest, e, he, hhit⟩
        · intro _
          trivial

/-! ## Claims -/

/-- Claim C1 (amended): `safe_parse_json` is a total function — every
failure of a cascade stage falls through to the next and total failure
yields the empty mapping — but the value it returns is whatever JSON value
the first successful stage parsed, which need not be a mapping from
strings to lists of strings.  Formally: the result is either the `loads`
result of some intermediate string, the `evalLit` result of some
intermediate string, or the empty object. -/
theorem safe_parse_json_total (loads evalLit : String → Option JVal) (raw : String) :
    (∃ s, loads s = some (safe_parse_json loads evalLit raw)) ∨
    (∃ s, evalLit s = some (safe_parse_json loads evalLit raw)) ∨
    safe_parse_json loads evalLit raw = JVal.obj [] := by
  unfold safe_parse_json
  cases h0 : loads raw with
  | some v => exact .inl ⟨raw, h0⟩
  | none => exact safeParseCleaned_cases loads evalLit _

/-- Claim C1, counterexample to the claim as stated: the input `"3"` is
valid JSON, so stage 1 returns the number `3`, which is not a mapping from
strings to lists of strings. -/
theorem safe_parse_json_shape_counterexample :
    safe_parse_json loadsModel (fun _ => none) "3" = JVal.num 3 ∧
    isStrListObj (JVal.num 3) = false :=
  ⟨rfl, rfl⟩

/-- Claim C3: the code divides `len(overlap)` by `len(norm_title_tokens)`
with no zero guard, so a candidate title with zero normalized tokens makes
`is_in_history` raise `ZeroDivisionError` (modelled as `none`) as soon as
the history holds an entry with a non-empty token set — it does not return
`False` as the spec requires. -/
theorem is_in_history_zero_tokens_raises :
    (tokenSet id id "").card = 0 ∧
    is_in_history id id "" [("t", [HistEntry.mk "hello" "d"])] = none :=
  ⟨by decide, by decide⟩

/-- Claim C8 (amended): when openers exceed closers, `balance_braces`
appends exactly the missing closers; but when closers exceed openers it
removes the whole maximal trailing run of the closer character *and then*
`excess` further characters (whatever they are), i.e. it keeps exactly the
first `length − trailingRun − excess` characters — it does not merely
remove `excess` closer characters.  Stated for one opener/closer pass
(`balance_braces` is the brace pass followed by the bracket pass). -/
theorem balanceOne_spec (op cl : Char) (s : List Char) :
    (s.count cl < s.count op →
      balanceOne op cl s = s ++ List.replicate (s.count op - s.count cl) cl) ∧
    (s.count op < s.count cl →
      balanceOne op cl s = s.take (s.length - trailRun cl s - (s.count cl - s.count op))) := by
  constructor
  · intro h
    simp [balanceOne, h]
  · intro h
    have h2 : ¬ s.count cl < s.count op := by omega
    simp only [balanceOne, if_neg h2, if_pos h]
    rw [dropLastN, rstripChar_eq_take]
    rw [List.take_take, List.length_take]
    congr 1
    omega

/-- Claim C8, witness: on `"{a"` one closer is appended. -/
theorem balanceOne_spec_witness :
    ("\x7ba".data.count '\x7d' < "\x7ba".data.count '\x7b') ∧
    balanceOne '\x7b' '\x7d' "\x7ba".data =
      "\x7ba".data ++ List.replicate 1 '\x7d' :=
  ⟨by decide, (balanceOne_spec '\x7b' '\x7d' "\x7ba".data).1 (by decide)⟩

/-- Claim C8, counterexample to the claim as stated: on `"ab}}"` the
excess is `2` and the claim predicts the result `"ab"`, but
`text.rstrip('}')[:-2]` first strips both braces and then removes two
*further* characters, leaving the empty string. -/
theorem balance_braces_counterexample :
    balance_braces "ab\x7d\x7d".data = [] ∧ "ab".data ≠ ([] : List Char) :=
  ⟨by decide, by decide⟩

/-- Claim C4: for a candidate with at least one normalized token,
`is_in_history` never raises, and it returns `True` exactly when some
historical entry — across every topic of the history, scanned flat — has a
non-empty normalized token set `H` with `|T ∩ H| / |T| ≥ MATCH_THRESHOLD`,
where `T` is the candidate's normalized token set. -/
theorem is_in_history_threshold (stem lem : String → String) (title : String)
    (history : History) (hT : (tokenSet stem lem title).card ≠ 0) :
    is_in_history stem lem title history ≠ none ∧
    (is_in_history stem lem title history = some true ↔
      ∃ p ∈ history, ∃ e ∈ p.2,
        tokenSet stem lem e.title ≠ ∅ ∧
        MATCH_THRESHOLD ≤
          (((tokenSet stem lem title ∩ tokenSet stem lem e.title).card : ℚ) /
            ((tokenSet stem lem title).card : ℚ))) := by
  constructor
  · exact scanTopics_ne_none stem lem _ hT history
  · rw [is_in_history, scanTopics_true_iff stem lem _ hT history]
    refine exists_congr fun p => and_congr_right fun _ => exists_congr fun e =>
      and_congr_right fun _ => and_congr_right fun _ => ?_
    exact (threshold_iff _ _ hT).symm

/-- Claim C4, witness: `T = {aa, bb}`, one history entry with
`H = {aa, zz}`, overlap ratio `1/2 ≥ 2/5`, so the candidate is flagged. -/
theorem is_in_history_threshold_witness :
    is_in_history id id "aa bb" [("t", [HistEntry.mk "aa zz" "d"])] = some true := by
  refine (is_in_history_threshold id id "aa bb" [("t", [HistEntry.mk "aa zz" "d"])]
    (by decide)).2.mpr
    ⟨("t", [HistEntry.mk "aa zz" "d"]), by decide, HistEntry.mk "aa zz" "d", by decide,
      by decide, ?_⟩
  have h1 : (tokenSet id id "aa bb" ∩ tokenSet id id "aa zz").card = 1 := by decide
  have h2 : (tokenSet id id "aa bb").card = 2 := by decide
  rw [h1, h2]
  exact (threshold_iff 1 2 (by decide)).mpr (by decide)

/-- The inner article scan returns an article of the scanned list whose
normalized title is the target. -/
theorem pickArticle_sound (stem lem : String → String) (nt : String) (seen : List String)
    (arts : List Article) (a : Article) (h : pickArticle stem lem nt seen arts = some a) :
    a ∈ arts ∧ normalize stem lem a.title = nt := by
  induction arts with
  | nil => exact absurd h (by simp [pickArticle])
  | cons b rest ih =>
    by_cases hc : normalize stem lem b.title = nt ∧ nt ∉ seen
    · rw [pickArticle, if_pos hc] at h
      obtain rfl := Option.some.inj h
      exact ⟨List.mem_cons_self b rest, hc.1⟩
    · rw [pickArticle, if_neg hc] at h
      obtain ⟨h1, h2⟩ := ih h
      exact ⟨List.mem_cons_of_mem b h1, h2⟩

/-- Every article selected by the title loop is one of the topic's fetched
articles and matches one of the topic's selected titles by normalized
form. -/
theorem selectLoop_sound (stem lem : String → String) (arts : List Article) :
    ∀ ts seen a, a ∈ selectLoop stem lem arts seen ts →
      a ∈ arts ∧ ∃ t ∈ ts, normalize stem lem a.title = normalize stem lem t := by
  intro ts
  induction ts with
  | nil => intro seen a h; exact absurd h (by simp [selectLoop])
  | cons t ts2 ih =>
    intro seen a h
    rw [selectLoop] at h
    cases hp : pickArticle stem lem (normalize stem lem t) seen arts with
    | some b =>
      rw [hp] at h
      rcases List.mem_cons.mp h with h1 | h1
      · subst h1
        obtain ⟨hmem, heq⟩ := pickArticle_sound stem lem _ seen arts a hp
        exact ⟨hmem, t, List.mem_cons_self t ts2, heq⟩
      · obtain ⟨hmem, t2, ht2, heq⟩ := ih _ a h1
        exact ⟨hmem, t2, List.mem_cons_of_mem t ht2, heq⟩
    | none =>
      rw [hp] at h
      obtain ⟨hmem, t2, ht2, heq⟩ := ih _ a h
      exact ⟨hmem, t2, List.mem_cons_of_mem t ht2, heq⟩

/-- Claim C2: every topic of the rebuilt digest comes from the selection
and retains at least one article, and every article placed under a topic
is an article of that same topic's candidate set whose normalized title
equals the normalized form of one of the topic's selected titles — so a
selected title matching no candidate of its topic never appears. -/
theorem rebuild_guard (stem lem : String → String) (sel : List (String × List String))
    (full : List (String × List Article)) :
    ∀ topic arts, (topic, arts) ∈ rebuildDigest stem lem sel full →
      ∃ ts, (topic, ts) ∈ sel ∧ arts ≠ [] ∧
        ∀ a ∈ arts, a ∈ lookupD full topic [] ∧
          ∃ t ∈ ts, normalize stem lem a.title = normalize stem lem t := by
  induction sel with
  | nil => intro topic arts h; exact absurd h (by simp [rebuildDigest])
  | cons p rest ih =>
    intro topic arts hmem
    obtain ⟨tp, titles⟩ := p
    rw [rebuildDigest] at hmem
    by_cases hsel : (selectLoop stem lem (lookupD full tp []) [] titles).isEmpty = true
    · rw [if_pos hsel] at hmem
      obtain ⟨ts, hts, h⟩ := ih topic arts hmem
      exact ⟨ts, List.mem_cons_of_mem _ hts, h⟩
    · rw [if_neg hsel] at hmem
      rcases List.mem_cons.mp hmem with h | h
      · rw [Prod.mk.injEq] at h
        obtain ⟨h1, h2⟩ := h
        subst h1
        subst h2
        refine ⟨titles, List.mem_cons_self _ _, ?_, ?_⟩
        · intro hnil
          rw [hnil] at hsel
          exact hsel rfl
        · intro a ha
          obtain ⟨hmem2, t, ht, heq⟩ := selectLoop_sound stem lem _ titles [] a ha
          exact ⟨hmem2, t, ht, heq⟩
      · obtain ⟨ts, hts, h2⟩ := ih topic arts h
        exact ⟨ts, List.mem_cons_of_mem _ hts, h2⟩

/-- Claim C2, witness: the selected title `"X a"` reconciles (by normalized
equality) to the fetched article titled `"x A"`, which is indeed in the
topic's candidate set. -/
theorem rebuild_guard_witness :
    Article.mk "x A" "l" "d" ∈ lookupD [("T", [Article.mk "x A" "l" "d"])] "T" [] := by
  obtain ⟨ts, hts, hne, hall⟩ := rebuild_guard id id [("T", ["X a"])]
    [("T", [Article.mk "x A" "l" "d"])] "T" [Article.mk "x A" "l" "d"] (by decide)
  exact (hall (Article.mk "x A" "l" "d") (by decide)).1

/-- Pruning is the identity on a history whose entries all survive and
whose topics are all non-empty. -/
theorem prune_eq_self (pd : String → Option Int) (now : Int) (h : History)
    (hfresh : ∀ p ∈ h, p.2 ≠ [] ∧ ∀ e ∈ p.2, keepEntry pd now e = true) :
    prune pd now h = h := by
  induction h with
  | nil => rfl
  | cons p rest ih =>
    have hp := hfresh p (List.mem_cons_self p rest)
    have hrest := fun q hq => hfresh q (List.mem_cons_of_mem p hq)
    have hfilter : p.2.filter (keepEntry pd now) = p.2 :=
      List.filter_eq_self.mpr fun e he => hp.2 e he
    have hne : (p.2.isEmpty : Bool) = false := by
      cases hq : p.2 with
      | nil => exact absurd hq hp.1
      | cons a l => rfl
    have ihr := ih hrest
    rw [prune] at ihr ⊢
    rw [List.map_cons, List.filter_cons, hfilter, hne]
    simp only [Bool.not_false, if_pos]
    rw [ihr]

/-- A map that fixes a list element-wise fixes each of its elements. -/
theorem map_eq_self_mem {α : Type} (f : α → α) (l : List α) (h : l.map f = l) :
    ∀ x ∈ l, f x = x := by
  induction l with
  | nil => simp
  | cons a t ih =>
    rw [List.map_cons, List.cons.injEq] at h
    intro x hx
    rcases List.mem_cons.mp hx with rfl | hx
    · exact h.1
    · exact ih h.2 x hx

/-- Pruning is the identity exactly on histories whose entries all survive
and whose topics are all non-empty. -/
theorem prune_eq_self_iff (pd : String → Option Int) (now : Int) (h : History) :
    prune pd now h = h ↔ ∀ p ∈ h, p.2 ≠ [] ∧ ∀ e ∈ p.2, keepEntry pd now e = true := by
  constructor
  · intro hsame
    have h1 : (h.map (fun p => (p.1, p.2.filter (keepEntry pd now)))).filter
        (fun p => !p.2.isEmpty) = h := hsame
    have hsub := List.filter_sublist (p := fun p => !p.2.isEmpty)
      (h.map (fun p => (p.1, p.2.filter (keepEntry pd now))))
    have hlen : ((h.map (fun p => (p.1, p.2.filter (keepEntry pd now)))).filter
        (fun p => !p.2.isEmpty)).length =
        (h.map (fun p => (p.1, p.2.filter (keepEntry pd now)))).length := by
      rw [h1, List.length_map]
    have h2 := hsub.eq_of_length hlen
    have h3 : h.map (fun p => (p.1, p.2.filter (keepEntry pd now))) = h := by
      rw [← h2, h1]
    have h4 := map_eq_self_mem _ h h3
    have h5 := List.filter_eq_self.mp h2
    intro p hp
    have hfp : (p.1, p.2.filter (keepEntry pd now)) = p := h4 p hp
    have hgp : (!p.2.isEmpty) = true := by
      refine h5 p ?_
      rw [h3]
      exact hp
    constructor
    · intro hnil
      rw [hnil] at hgp
      simp at hgp
    · exact List.filter_eq_self.mp (congrArg Prod.snd hfp)
  · exact prune_eq_self pd now h

/-- Claim C5 (amended): only the history *append* is gated on a successful
send; retention pruning (and the save) run unconditionally.  When the send
fails, the persisted history is the loaded history with retention pruning
applied — which coincides with the loaded history if and only if every
loaded entry has a parseable timestamp within 30 days and no topic is
empty. -/
theorem finalize_prune_unconditional (stem lem : String → String)
    (pd : String → Option Int) (now : Int) (digest : List (String × List Article))
    (history : History) :
    runFinalize stem lem pd now false digest history = prune pd now history ∧
    (runFinalize stem lem pd now false digest history = history ↔
      ∀ p ∈ history, p.2 ≠ [] ∧ ∀ e ∈ p.2, keepEntry pd now e = true) := by
  constructor
  · rfl
  · exact prune_eq_self_iff pd now history

/-- Claim C5, witness: a failed send leaves a fully fresh history exactly
as loaded. -/
theorem finalize_prune_witness :
    runFinalize id id (fun s => if s = "5" then some 5 else none) 5 false []
      [("t", [HistEntry.mk "x" "5"])] = [("t", [HistEntry.mk "x" "5"])] :=
  (finalize_prune_unconditional id id (fun s => if s = "5" then some 5 else none) 5 []
    [("t", [HistEntry.mk "x" "5"])]).2.mpr (by decide)

/-- Claim C5, counterexample to the claim as stated: the send fails
(`sendOk = false`) yet the persisted history differs from the loaded one —
the entry whose timestamp is older than 30 days is pruned and its topic is
deleted even though nothing was sent. -/
theorem finalize_counterexample :
    runFinalize id id (fun s => if s = "0" then some 0 else none) 2600000 false []
      [("t", [HistEntry.mk "x" "0"])] ≠ [("t", [HistEntry.mk "x" "0"])] := by
  decide

/-- Elements of `setKey k v h` are the new pair or old elements. -/
theorem setKey_mem {α : Type} (k : String) (v : α) (h : List (String × α)) :
    ∀ p ∈ setKey k v h, p = (k, v) ∨ p ∈ h := by
  induction h with
  | nil =>
    intro p hp
    rcases List.mem_singleton.mp hp with rfl
    exact Or.inl rfl
  | cons q rest ih =>
    intro p hp
    rw [setKey] at hp
    by_cases hq : q.1 = k
    · rw [if_pos hq] at hp
      rcases List.mem_cons.mp hp with h1 | h1
      · exact Or.inl h1
      · exact Or.inr (List.mem_cons_of_mem q h1)
    · rw [if_neg hq] at hp
      rcases List.mem_cons.mp hp with h1 | h1
      · exact Or.inr (h1 ▸ List.mem_cons_self q rest)
      · rcases ih p h1 with h2 | h2
        · exact Or.inl h2
        · exact Or.inr (List.mem_cons_of_mem q h2)

/-- `l[-n:]` has at most `n` elements. -/
theorem lastN_length_le {α : Type} (n : Nat) (l : List α) : (lastN n l).length ≤ n := by
  rw [lastN, List.length_drop]
  omega

/-- Every topic list in the post-append history is freshly truncated to at
most 40 entries or was already present, untouched. -/
theorem recordSent_mem (stem lem : String → String) :
    ∀ (digest : List (String × List Article)) (history : History),
      ∀ p ∈ recordSent stem lem digest history, p.2.length ≤ 40 ∨ p ∈ history := by
  intro digest
  induction digest with
  | nil => intro history p hp; exact Or.inr hp
  | cons d rest ih =>
    intro history p hp
    rw [recordSent, List.foldl_cons] at hp
    rcases ih _ p hp with h1 | h1
    · exact Or.inl h1
    · rcases setKey_mem _ _ history p h1 with h2 | h2
      · rw [h2]
        exact Or.inl (lastN_length_le 40 _)
      · exact Or.inr h2

/-- Claim C7: after recording a sent digest every topic key the append
touched holds at most 40 entries (and under the ≤ 40 invariant on the
loaded history, *every* topic key does); each touched key stores a
*suffix* of its appended sequence of length `min 40 len` — the 40 most
recent entries, oldest dropped first; pruning keeps, for each surviving
topic key, exactly the entries whose timestamp parses within the last 30
days, and a topic key is in the pruned history exactly when its filtered
list is non-empty. -/
theorem history_retention (stem lem : String → String) (pd : String → Option Int)
    (now : Int) (digest : List (String × List Article)) (history : History) :
    (∀ p ∈ recordSent stem lem digest history, p.2.length ≤ 40 ∨ p ∈ history) ∧
    ((∀ p ∈ history, p.2.length ≤ 40) →
      ∀ p ∈ recordSent stem lem digest history, p.2.length ≤ 40) ∧
    (∀ (arts : List Article) (cur : List HistEntry),
      recordTopic stem lem arts cur <:+ cur ++ freshFor stem lem arts cur ∧
      (recordTopic stem lem arts cur).length =
        min 40 (cur ++ freshFor stem lem arts cur).length) ∧
    (∀ k l, (k, l) ∈ prune pd now history ↔
      l ≠ [] ∧ ∃ l0, (k, l0) ∈ history ∧ l = l0.filter (keepEntry pd now)) := by
  refine ⟨recordSent_mem stem lem digest history, ?_, ?_, ?_⟩
  · intro hb p hp
    rcases recordSent_mem stem lem digest history p hp with h1 | h1
    · exact h1
    · exact hb p h1
  · intro arts cur
    constructor
    · exact List.drop_suffix _ _
    · rw [recordTopic, lastN, List.length_drop]
      omega
  · intro k l
    constructor
    · intro hmem
      rw [prune] at hmem
      obtain ⟨hmap, hne⟩ := List.mem_filter.mp hmem
      obtain ⟨q, hq, heq⟩ := List.mem_map.mp hmap
      rw [Prod.mk.injEq] at heq
      obtain ⟨h1, h2⟩ := heq
      refine ⟨?_, q.2, h1 ▸ hq, h2.symm⟩
      intro hnil
      rw [hnil] at hne
      simp at hne
    · rintro ⟨hne, l0, hmem, rfl⟩
      rw [prune]
      refine List.mem_filter.mpr ⟨List.mem_map.mpr ⟨(k, l0), hmem, rfl⟩, ?_⟩
      simpa using hne

/-- Two-character title `i`, used to build concrete history instances. -/
def wtitle (i : Nat) : String :=
  String.mk [Char.ofNat (65 + i / 10), Char.ofNat (48 + i % 10)]

/-- A loaded history with one topic key holding 38 entries. -/
def histEx : History :=
  [("k", (List.range 38).map fun i => HistEntry.mk (wtitle i) "d")]

/-- A digest with 7 fresh articles for that topic key. -/
def digEx : List (String × List Article) :=
  [("k", (List.range 7).map fun i => Article.mk (wtitle (50 + i)) "l" "d")]

/-- The 45-entry list after the append, before truncation. -/
def appendedEx : List HistEntry :=
  ((List.range 38).map fun i => HistEntry.mk (wtitle i) "d") ++
    ((List.range 7).map fun i => HistEntry.mk (wtitle (50 + i)) "d")

/-- Claim C7, witness: appending 7 articles to 38 entries gives 45, and the
stored list is the 40 most recent of them — in particular at most 40. -/
theorem history_retention_witness :
    (lastN 40 appendedEx).length ≤ 40 ∧ lastN 40 appendedEx ≠ appendedEx :=
  ⟨(history_retention id id (fun _ => none) 0 digEx histEx).2.1 (by decide)
    ("k", lastN 40 appendedEx) (by decide), by decide⟩

/-- The `seen_normalized_titles` set after one topic's title loop holds
exactly the old contents plus every normalized title of the topic. -/
theorem dedupTitles_seen (stem lem : String → String) :
    ∀ (ts : List String) (seen : List String) (n : String),
      n ∈ (dedupTitles stem lem seen ts).2 ↔
        n ∈ seen ∨ n ∈ ts.map (normalize stem lem) := by
  intro ts
  induction ts with
  | nil => intro seen n; simp [dedupTitles]
  | cons t ts ih =>
    intro seen n
    by_cases hm : normalize stem lem t ∈ seen
    · rw [dedupTitles, if_pos hm, ih]
      simp only [List.map_cons, List.mem_cons]
      constructor
      · rintro (h | h)
        · exact Or.inl h
        · exact Or.inr (Or.inr h)
      · rintro (h | h | h)
        · exact Or.inl h
        · exact Or.inl (h ▸ hm)
        · exact Or.inr h
    · rw [dedupTitles, if_neg hm]
      have := ih (normalize stem lem t :: seen) n
      simp only [List.mem_cons] at this
      simp only [List.map_cons, List.mem_cons]
      rw [this]
      constructor
      · rintro ((h | h) | h)
        · exact Or.inr (Or.inl h)
        · exact Or.inl h
        · exact Or.inr (Or.inr h)
      · rintro (h | h | h)
        · exact Or.inl (Or.inr h)
        · exact Or.inl (Or.inl h)
        · exact Or.inr h

/-- The kept titles of one topic are a sublist of its input titles (kept in
order, never moved). -/
theorem dedupTitles_sublist (stem lem : String → String) :
    ∀ (ts : List String) (seen : List String),
      (dedupTitles stem lem seen ts).1.Sublist ts := by
  intro ts
  induction ts with
  | nil => intro seen; simp [dedupTitles]
  | cons t ts ih =>
    intro seen
    by_cases hm : normalize stem lem t ∈ seen
    · rw [dedupTitles, if_pos hm]
      exact (ih seen).cons t
    · rw [dedupTitles, if_neg hm]
      exact (ih (normalize stem lem t :: seen)).cons₂ t

/-- The normalized forms of the kept titles are distinct and none of them
was already seen. -/
theorem dedupTitles_kept (stem lem : String → String) :
    ∀ (ts : List String) (seen : List String),
      ((dedupTitles stem lem seen ts).1.map (normalize stem lem)).Nodup ∧
      ∀ n ∈ (dedupTitles stem lem seen ts).1.map (normalize stem lem), n ∉ seen := by
  intro ts
  induction ts with
  | nil => intro seen; simp [dedupTitles]
  | cons t ts ih =>
    intro seen
    by_cases hm : normalize stem lem t ∈ seen
    · rw [dedupTitles, if_pos hm]
      exact ih seen
    · rw [dedupTitles, if_neg hm]
      obtain ⟨hnd, hfresh⟩ := ih (normalize stem lem t :: seen)
      simp only [List.map_cons]
      constructor
      · refine List.nodup_cons.mpr ⟨?_, hnd⟩
        intro hmem
        exact (hfresh _ hmem) (List.mem_cons_self _ _)
      · intro n hn
        rcases List.mem_cons.mp hn with h | h
        · exact h ▸ hm
        · intro hns
          exact (hfresh n h) (List.mem_cons_of_mem _ hns)

/-- A normalized form that is not yet seen and occurs among a topic's
titles survives that topic's dedup loop. -/
theorem dedupTitles_hit (stem lem : String → String) :
    ∀ (ts : List String) (seen : List String) (n : String),
      n ∉ seen → n ∈ ts.map (normalize stem lem) →
      ∃ s ∈ (dedupTitles stem lem seen ts).1, normalize stem lem s = n := by
  intro ts
  induction ts with
  | nil => intro seen n _ h; simp at h
  | cons t ts ih =>
    intro seen n hns hmem
    have hmem2 : n = normalize stem lem t ∨ n ∈ ts.map (normalize stem lem) := by
      rw [List.map_cons] at hmem
      exact List.mem_cons.mp hmem
    by_cases hm : normalize stem lem t ∈ seen
    · rw [dedupTitles, if_pos hm]
      rcases hmem2 with h | h
      · refine absurd ?_ hns
        rw [h]
        exact hm
      · exact ih seen n hns h
    · rw [dedupTitles, if_neg hm]
      rcases hmem2 with h | h
      · exact ⟨t, List.mem_cons_self _ _, h.symm⟩
      · by_cases he : n = normalize stem lem t
        · exact ⟨t, List.mem_cons_self _ _, he.symm⟩
        · obtain ⟨s, hs, hsn⟩ := ih (normalize stem lem t :: seen) n
            (by
              intro hc
              rcases List.mem_cons.mp hc with h2 | h2
              · exact he h2
              · exact hns h2)
            h
          exact ⟨s, List.mem_cons_of_mem t hs, hsn⟩

/-- `digestNorms` unfolds on cons. -/
theorem digestNorms_cons (stem lem : String → String) (p : String × List String)
    (l : List (String × List String)) :
    digestNorms stem lem (p :: l) =
      p.2.map (normalize stem lem) ++ digestNorms stem lem l := rfl

/-- All normalized titles in the dedup pass output are pairwise distinct
and none was in the incoming seen set. -/
theorem dedupPass_norms (stem lem : String → String) :
    ∀ (sel : List (String × List String)) (seen : List String),
      (digestNorms stem lem (dedupPass stem lem seen sel)).Nodup ∧
      ∀ n ∈ digestNorms stem lem (dedupPass stem lem seen sel), n ∉ seen := by
  intro sel
  induction sel with
  | nil => intro seen; simp [dedupPass, digestNorms]
  | cons p rest ih =>
    intro seen
    obtain ⟨topic, titles⟩ := p
    rw [dedupPass]
    by_cases hk : (dedupTitles stem lem seen titles).1.isEmpty = true
    · rw [if_pos hk]
      obtain ⟨hnd, hfresh⟩ := ih (dedupTitles stem lem seen titles).2
      refine ⟨hnd, fun n hn hns => ?_⟩
      exact hfresh n hn ((dedupTitles_seen stem lem titles seen n).mpr (Or.inl hns))
    · rw [if_neg hk]
      rw [digestNorms_cons]
      obtain ⟨hnd2, hfresh2⟩ := ih (dedupTitles stem lem seen titles).2
      obtain ⟨hnd1, hfresh1⟩ := dedupTitles_kept stem lem titles seen
      have hsub : ∀ n ∈ (dedupTitles stem lem seen titles).1.map (normalize stem lem),
          n ∈ (dedupTitles stem lem seen titles).2 := by
        intro n hn
        obtain ⟨s, hs, hsn⟩ := List.mem_map.mp hn
        refine (dedupTitles_seen stem lem titles seen n).mpr (Or.inr ?_)
        exact List.mem_map.mpr ⟨s, (dedupTitles_sublist stem lem titles seen).mem hs, hsn⟩
      constructor
      · refine List.Nodup.append hnd1 hnd2 ?_
        intro n hn1 hn2
        exact hfresh2 n hn2 (hsub n hn1)
      · intro n hn hns
        rcases List.mem_append.mp hn with h | h
        · exact hfresh1 n h hns
        · exact hfresh2 n h ((dedupTitles_seen stem lem titles seen n).mpr (Or.inl hns))

/-- Every output pair of the dedup pass is an input topic with a sublist
of its own input titles. -/
theorem dedupPass_from (stem lem : String → String) :
    ∀ (sel : List (String × List String)) (seen : List String),
      ∀ p ∈ dedupPass stem lem seen sel, ∃ ts, (p.1, ts) ∈ sel ∧ p.2.Sublist ts := by
  intro sel
  induction sel with
  | nil => intro seen p hp; simp [dedupPass] at hp
  | cons q rest ih =>
    intro seen p hp
    obtain ⟨topic, titles⟩ := q
    rw [dedupPass] at hp
    by_cases hk : (dedupTitles stem lem seen titles).1.isEmpty = true
    · rw [if_pos hk] at hp
      obtain ⟨ts, hts, hsub⟩ := ih _ p hp
      exact ⟨ts, List.mem_cons_of_mem _ hts, hsub⟩
    · rw [if_neg hk] at hp
      rcases List.mem_cons.mp hp with h | h
      · subst h
        exact ⟨titles, List.mem_cons_self _ _, dedupTitles_sublist stem lem titles seen⟩
      · obtain ⟨ts, hts, hsub⟩ := ih _ p h
        exact ⟨ts, List.mem_cons_of_mem _ hts, hsub⟩

/-- A normalized form not yet seen appears in the output under the first
input topic that contains it. -/
theorem dedupPass_first (stem lem : String → String) :
    ∀ (sel : List (String × List String)) (seen : List String) (n : String)
      (topic : String), n ∉ seen →
      firstTopicWith stem lem n sel = some topic →
      ∃ l, (topic, l) ∈ dedupPass stem lem seen sel ∧
        ∃ s ∈ l, normalize stem lem s = n := by
  intro sel
  induction sel with
  | nil => intro seen n topic _ h; simp [firstTopicWith] at h
  | cons q rest ih =>
    intro seen n topic hns hfirst
    obtain ⟨tp, titles⟩ := q
    by_cases hany : (titles.any fun t => normalize stem lem t == n) = true
    · have htp : tp = topic := by
        rw [firstTopicWith] at hfirst
        rw [List.find?_cons_of_pos _ (by simpa using hany)] at hfirst
        simpa using hfirst
      subst htp
      obtain ⟨t, ht, htn⟩ := List.any_eq_true.mp hany
      have hmem : n ∈ titles.map (normalize stem lem) :=
        List.mem_map.mpr ⟨t, ht, by simpa using htn⟩
      obtain ⟨s, hs, hsn⟩ := dedupTitles_hit stem lem titles seen n hns hmem
      have hk : (dedupTitles stem lem seen titles).1.isEmpty = false := by
        cases hq : (dedupTitles stem lem seen titles).1 with
        | nil => rw [hq] at hs; simp at hs
        | cons a l => rfl
      rw [dedupPass]
      rw [if_neg (by rw [hk]; simp)]
      exact ⟨(dedupTitles stem lem seen titles).1, List.mem_cons_self _ _, s, hs, hsn⟩
    · have hfirst2 : firstTopicWith stem lem n rest = some topic := by
        rw [firstTopicWith] at hfirst
        rw [List.find?_cons_of_neg _ (by simpa using hany)] at hfirst
        exact hfirst
      have hnm : n ∉ titles.map (normalize stem lem) := by
        intro hc
        obtain ⟨t, ht, htn⟩ := List.mem_map.mp hc
        have hall : ∀ x ∈ titles, ¬ normalize stem lem x = n := by simpa using hany
        exact hall t ht htn
      have hns2 : n ∉ (dedupTitles stem lem seen titles).2 := by
        intro hc
        rcases (dedupTitles_seen stem lem titles seen n).mp hc with h | h
        · exact hns h
        · exact hnm h
      obtain ⟨l, hl, hsl⟩ := ih _ n topic hns2 hfirst2
      rw [dedupPass]
      by_cases hk : (dedupTitles stem lem seen titles).1.isEmpty = true
      · rw [if_pos hk]
        exact ⟨l, hl, hsl⟩
      · rw [if_neg hk]
        exact ⟨l, List.mem_cons_of_mem _ hl, hsl⟩

/-- Claim C6: the dedup pass makes normalized titles globally unique —
the normalized forms across the whole output digest are pairwise distinct;
each output topic keeps a sublist of its own input titles (titles are
dropped, never moved); and a normalized form present in the selection
appears under the first topic (in iteration order) that contains it. -/
theorem dedup_global_unique (stem lem : String → String)
    (sel : List (String × List String)) :
    (digestNorms stem lem (dedupPass stem lem [] sel)).Nodup ∧
    (∀ p ∈ dedupPass stem lem [] sel, ∃ ts, (p.1, ts) ∈ sel ∧ p.2.Sublist ts) ∧
    (∀ n topic, firstTopicWith stem lem n sel = some topic →
      ∃ l, (topic, l) ∈ dedupPass stem lem [] sel ∧
        ∃ s ∈ l, normalize stem lem s = n) :=
  ⟨(dedupPass_norms stem lem sel []).1,
   dedupPass_from stem lem sel [],
   fun n topic h => dedupPass_first stem lem sel [] n topic (by simp) h⟩

/-- Claim C6, witness: `"x"` is selected under topic `A` and (cased
differently) under topic `B`; the pass keeps it under `A`, the first
topic. -/
theorem dedup_global_unique_witness :
    firstTopicWith id id "x" [("A", ["x"]), ("B", ["X"])] = some "A" ∧
    ∃ l, ("A", l) ∈ dedupPass id id [] [("A", ["x"]), ("B", ["X"])] ∧
      ∃ s ∈ l, normalize id id s = "x" :=
  ⟨by decide, (dedup_global_unique id id [("A", ["x"]), ("B", ["X"])]).2.2 "x" "A" (by decide)⟩

/-- Tokens produced by the splitter are non-empty and whitespace-free. -/
theorem splitAux_tokens :
    ∀ (cs cur : List Char), (∀ c ∈ cur, isPySpace c = false) →
      ∀ t ∈ splitAux cur cs, t ≠ [] ∧ ∀ c ∈ t, isPySpace c = false := by
  intro cs
  induction cs with
  | nil =>
    intro cur hcur t ht
    rw [splitAux] at ht
    by_cases hc : cur.isEmpty = true
    · rw [if_pos hc] at ht
      simp at ht
    · rw [if_neg hc] at ht
      rcases List.mem_singleton.mp ht with rfl
      constructor
      · intro h0
        have hnil : cur = [] := by simpa using congrArg List.reverse h0
        rw [hnil] at hc
        exact hc rfl
      · intro c hcm
        exact hcur c (List.mem_reverse.mp hcm)
  | cons c rest ih =>
    intro cur hcur t ht
    rw [splitAux] at ht
    by_cases hw : isPySpace c = true
    · rw [if_pos hw] at ht
      by_cases hc : cur.isEmpty = true
      · rw [if_pos hc] at ht
        exact ih [] (by simp) t ht
      · rw [if_neg hc] at ht
        rcases List.mem_cons.mp ht with h | h
        · subst h
          constructor
          · intro h0
            have hnil : cur = [] := by simpa using congrArg List.reverse h0
            rw [hnil] at hc
            exact hc rfl
          · intro d hd
            exact hcur d (List.mem_reverse.mp hd)
        · exact ih [] (by simp) t h
    · rw [if_neg hw] at ht
      refine ih (c :: cur) ?_ t ht
      intro d hd
      rcases List.mem_cons.mp hd with h | h
      · subst h
        cases h2 : isPySpace d
        · rfl
        · exact absurd h2 hw
      · exact hcur d h

/-- Tokens of `pySplit` are non-empty and whitespace-free strings. -/
theorem pySplit_tokens (s : String) :
    ∀ w ∈ pySplit s, w ≠ "" ∧ ∀ c ∈ w.data, isPySpace c = false := by
  intro w hw
  obtain ⟨t, ht, rfl⟩ := List.mem_map.mp hw
  obtain ⟨hne, hfree⟩ := splitAux_tokens s.data [] (by simp) t ht
  constructor
  · intro hc
    exact hne (congrArg String.data hc)
  · exact hfree

/-- Lowercasing distributes over string concatenation. -/
theorem pyLower_append (a b : String) : pyLower (a ++ b) = pyLower a ++ pyLower b := by
  apply String.ext
  show ((a ++ b).data.map Char.toLower) = (pyLower a ++ pyLower b).data
  rw [String.data_append, String.data_append, List.map_append]
  rfl

/-- Lowercasing distributes over the space-join. -/
theorem pyLower_pyJoin (L : List String) :
    pyLower (pyJoin " " L) = pyJoin " " (L.map pyLower) := by
  induction L with
  | nil => rfl
  | cons w ws ih =>
    cases ws with
    | nil => rfl
    | cons w2 ws2 =>
      show pyLower (w ++ " " ++ pyJoin " " (w2 :: ws2)) = _
      rw [pyLower_append, pyLower_append, ih]
      rfl

/-- Scanning a whitespace-free chunk just accumulates it. -/
theorem splitAux_chunk :
    ∀ (w cur t : List Char), (∀ c ∈ w, isPySpace c = false) →
      splitAux cur (w ++ t) = splitAux (w.reverse ++ cur) t := by
  intro w
  induction w with
  | nil => intro cur t _; rfl
  | cons c w ih =>
    intro cur t hfree
    show splitAux cur (c :: (w ++ t)) = _
    rw [splitAux]
    rw [if_neg (by simp [hfree c (List.mem_cons_self c w)])]
    rw [ih (c :: cur) t (fun d hd => hfree d (List.mem_cons_of_mem c hd))]
    rw [List.reverse_cons, List.append_assoc]
    rfl

/-- Splitting the space-join of non-empty whitespace-free tokens recovers
exactly the token list. -/
theorem pySplit_reconstruct :
    ∀ (L : List String), (∀ w ∈ L, w ≠ "" ∧ ∀ c ∈ w.data, isPySpace c = false) →
      pySplit (pyJoin " " L) = L := by
  intro L
  induction L with
  | nil => intro _; rfl
  | cons w ws ih =>
    intro hL
    obtain ⟨hne, hfree⟩ := hL w (List.mem_cons_self w ws)
    have hdne : w.data ≠ [] := fun hc => hne (String.ext hc)
    cases ws with
    | nil =>
      show (splitAux [] w.data).map String.mk = [w]
      have h0 : w.data = w.data ++ [] := by simp
      rw [h0, splitAux_chunk w.data [] [] hfree, List.append_nil, splitAux]
      have hrne : w.data.reverse.isEmpty = false := by
        cases hr : w.data.reverse with
        | nil => exact absurd (by simpa using congrArg List.reverse hr) hdne
        | cons a l => rfl
      rw [hrne]
      simp
    | cons w2 ws2 =>
      show (splitAux [] ((w ++ " " ++ pyJoin " " (w2 :: ws2)).data)).map String.mk = _
      rw [String.data_append, String.data_append]
      have hsp : (" " : String).data = [' '] := rfl
      have hassoc : (w.data ++ [' ']) ++ (pyJoin " " (w2 :: ws2)).data =
          w.data ++ (' ' :: (pyJoin " " (w2 :: ws2)).data) := by simp
      rw [hsp, hassoc]
      rw [splitAux_chunk w.data [] (' ' :: (pyJoin " " (w2 :: ws2)).data) hfree]
      rw [List.append_nil, splitAux]
      rw [if_pos (by decide : isPySpace ' ' = true)]
      have hrne : w.data.reverse.isEmpty = false := by
        cases hr : w.data.reverse with
        | nil => exact absurd (by simpa using congrArg List.reverse hr) hdne
        | cons a l => rfl
      rw [hrne]
      show (w.data.reverse.reverse :: splitAux [] (pyJoin " " (w2 :: ws2)).data).map String.mk = _
      rw [List.reverse_reverse, List.map_cons]
      have ih2 := ih (fun u hu => hL u (List.mem_cons_of_mem w hu))
      rw [show (splitAux [] (pyJoin " " (w2 :: ws2)).data).map String.mk =
        pySplit (pyJoin " " (w2 :: ws2)) from rfl, ih2]

/-- Claim C9 (amended): `normalize` is idempotent for every input provided
the composite token reduction `w ↦ lower(lem(stem(w)))` sends non-empty
tokens to non-empty whitespace-free tokens and every reduced token is a
fixed point of the reduction.  (The source's reducers are NLTK's stemmer
and lemmatizer, which are external to the repository; without the
fixed-point condition idempotence fails, see the counterexample.) -/
theorem normalize_idem_conditional (stem lem : String → String)
    (h1 : ∀ w, w ≠ "" → pyLower (lem (stem w)) ≠ "")
    (h2 : ∀ w c, c ∈ (pyLower (lem (stem w))).data → isPySpace c = false)
    (h3 : ∀ w, lem (stem (pyLower (lem (stem w)))) = lem (stem w)) (x : String) :
    normalize stem lem (normalize stem lem x) = normalize stem lem x := by
  unfold normalize
  have hrec : pySplit (pyLower (pyJoin " " (((pySplit (pyLower x)).map stem).map lem))) =
      (((pySplit (pyLower x)).map stem).map lem).map pyLower := by
    rw [pyLower_pyJoin]
    apply pySplit_reconstruct
    intro w hw
    simp only [List.map_map] at hw
    obtain ⟨w0, hw0, rfl⟩ := List.mem_map.mp hw
    obtain ⟨hne0, _⟩ := pySplit_tokens (pyLower x) w0 hw0
    exact ⟨h1 w0 hne0, h2 w0⟩
  rw [hrec]
  simp only [List.map_map]
  apply congrArg
  apply List.map_congr_left
  intro w _
  exact h3 w

/-- Claim C9, witness: for a reduction that satisfies the fixed-point
condition (here: every token reduces to the constant token `"tok"`),
`normalize` is idempotent. -/
theorem normalize_idem_conditional_witness :
    normalize (fun _ => "tok") id (normalize (fun _ => "tok") id "Some News Title") =
      normalize (fun _ => "tok") id "Some News Title" := by
  apply normalize_idem_conditional
  · intro w hw
    show pyLower (id "tok") ≠ ""
    decide
  · intro w c hc
    have hc3 : c ∈ ['t', 'o', 'k'] := hc
    rcases List.mem_cons.mp hc3 with rfl | hc3
    · decide
    rcases List.mem_cons.mp hc3 with rfl | hc3
    · decide
    rcases List.mem_cons.mp hc3 with rfl | hc3
    · decide
    · exact absurd hc3 (by simp)
  · intro w
    rfl

/-- Claim C9, counterexample to the claim as stated: with a
suffix-stripping stem and a dictionary lemmatizer as the spec describes
(behaving as NLTK does on these words: `stem` strips a final `s`,
`lem("corpora") = "corpus"`), `normalize "corpora" = "corpus"` but
normalizing again strips the `s` and yields `"corpu"` — idempotence fails
without the fixed-point condition. -/
theorem normalize_idem_counterexample :
    normalize stemModel lemModel (normalize stemModel lemModel "corpora") ≠
      normalize stemModel lemModel "corpora" := by
  decide

/-- Claim C10: an input that already parses as strict JSON is returned
exactly as its strict parse; none of the repair transformations are
applied to it. -/
theorem strict_json_untouched (loads evalLit : String → Option JVal) (raw : String)
    (v : JVal) (h : loads raw = some v) :
    safe_parse_json loads evalLit raw = v := by
  unfold safe_parse_json
  rw [h]

/-- Claim C10, witness: a well-formed object input comes back verbatim. -/
theorem strict_json_untouched_witness :
    loadsModel "\x7b\"A\": [\"x\"]\x7d" = some (JVal.obj [("A", JVal.arr [JVal.str "x"])]) ∧
    safe_parse_json loadsModel (fun _ => none) "\x7b\"A\": [\"x\"]\x7d" =
      JVal.obj [("A", JVal.arr [JVal.str "x"])] :=
  ⟨rfl, strict_json_untouched loadsModel (fun _ => none) _ _ rfl⟩

end NewsBot
